import Mathlib

/-!
Verification of the scalar-multiplication / pairing core of a pairing-friendly
elliptic-curve library (source files: `utils.rs`, `group_elem.rs`,
`extension_field_gt.rs`).

Shallow embedding conventions:
* AMCL big integers (`BigNum`, `DoubleBigNum`) are modelled as `Nat`; the
  big-integer primitives the code calls (`shr`, `mod2m`, `mul`, `minus`,
  `comp`, `div`, `nbits`) are exact integer operations in the value ranges the
  algorithms use (all subtractions in `barrett_reduction` are performed only
  when the mathematical result is non-negative, matching the code's own
  comment "Since negative numbers are not supported, use r2 - r1").
* Curve points are modelled as elements of an arbitrary additive commutative
  group, matching the spec's curve-point capability set (identity, add,
  double, negate, equality); the external constant-time multiply
  `scalar_mul_const_time` is modelled as the mathematical scalar multiple.
* Scalar-field elements are modelled by their natural-number values.
* Loops are translated to structural recursion; `while` loops whose body
  strictly decreases the state carry an explicit fuel argument that is large
  enough for every terminating run of the source loop.
-/

/-! ### `utils.rs`: Barrett reduction -/

/-- The tail loop of `barrett_reduction`:
`while BigNum::comp(&r, modulus) >= 0 { r = BigNum::minus(&r, modulus); }`.
Translated with fuel; for `0 < m` the fuel `r + 1` is enough for the loop to
reach its exit condition, so the model is exact there (for `m = 0` the source
loop does not terminate; no caller uses `m = 0`). -/
def reduceLoopAux (m : Nat) : Nat → Nat → Nat
  | 0, r => r
  | fuel + 1, r => if m ≤ r then reduceLoopAux m fuel (r - m) else r

def reduceLoop (m r : Nat) : Nat := reduceLoopAux m (r + 1) r

/-- `barrett_reduction(x, modulus, k, u, v)` from `utils.rs` lines 44-92.
`q1 = floor(x / 2^(k-1))`, `q2 = q1 * u`, `q3 = floor(q2 / 2^(k+1))`,
`r1 = x mod 2^(k+1)`, `r2 = (q3 * modulus) mod 2^(k+1)`,
`r = r1 - r2` corrected by `+ v` when `r1 < r2`, then the subtraction loop. -/
def barrett_reduction (x modulus k u v : Nat) : Nat :=
  let q1 := x / 2 ^ (k - 1)
  let q2 := q1 * u
  let q3 := q2 / 2 ^ (k + 1)
  let r1 := x % 2 ^ (k + 1)
  let r2 := (q3 * modulus) % 2 ^ (k + 1)
  let r := if r1 < r2 then v - (r2 - r1) else r1 - r2
  reduceLoop modulus r

/-- `BigNum::nbits` (bit length of a big integer, external primitive):
number of binary digits, `0` for `0`.  Fuel-based structural recursion so
that concrete values compute by `decide`. -/
def nbitsAux : Nat → Nat → Nat
  | 0, _ => 0
  | fuel + 1, n => if n = 0 then 0 else nbitsAux fuel (n / 2) + 1

def nbits (n : Nat) : Nat := nbitsAux n n

/-- `barrett_reduction_params(modulus)` from `utils.rs` lines 140-157.
`k = modulus.nbits()`; `u` is built as `1` shifted left `k` twice (i.e.
`2^(2k)`) and then divided — by the global constant `CURVE_ORDER`, not by the
`modulus` argument (line 150: `u.div(&CURVE_ORDER)`); `v = 2^(k+1)`.
The constant `CURVE_ORDER` lives in `constants.rs` (not among the source
files); it is passed here as the explicit parameter `curveOrder`. -/
def barrett_reduction_params (curveOrder modulus : Nat) : Nat × Nat × Nat :=
  let k := nbits modulus
  let u := (2 ^ k * 2 ^ k) / curveOrder
  let v := 2 ^ (k + 1)
  (k, u, v)

/-! ### `group_elem.rs`: lookup tables, wNAF multiplication, multi-scalar
multiplication, vector scaling.

The algorithms are generic over the curve-point capability set (identity,
add, subtract, double), modelled as an arbitrary additive commutative group
`G`; scalars are modelled by their natural-number values. -/

section GroupModel

variable {G : Type} [AddCommGroup G]

/-- The construction loop of the lookup table (`From<&$group_element> for
$lookup_table`, `group_elem.rs` lines 419-439): `a_i[0] = a`,
`a_i[i+1] = a_i[i] + a_2`.  `tableEntries a2 cur n` lists the next `n`
entries starting from `cur` with step `a2`. -/
def tableEntries (a2 : G) : G → Nat → List G
  | _, 0 => []
  | cur, n + 1 => cur :: tableEntries a2 (cur + a2) n

/-- The lookup table built from base element `a`: eight entries starting at
`a` with step `a_2 = a.double()`, i.e. `[A, 3A, 5A, 7A, 9A, 11A, 13A, 15A]`. -/
def lookupTableFrom (a : G) : List G := tableEntries (a + a) a 8

/-- `$lookup_table::select` (`group_elem.rs` lines 411-417): entry `x / 2`,
defined (`debug_assert`) only for odd `x < 16`.  Out-of-range access panics in
the source; `getD` with default `0` is exact on the asserted domain. -/
def tableSelect (table : List G) (x : Nat) : G := table.getD (x / 2) 0

/-- `wnaf_mul` (`group_elem.rs` lines 476-491): starting from the identity,
for each wNAF digit from most significant to least, double the accumulator
and add `select(d)` for a positive digit `d`, subtract `select(-d)` for a
negative one. -/
def wnaf_mul (table : List G) (wnaf : List Int) : G :=
  wnaf.reverse.foldl
    (fun result n =>
      if n > 0 then (result + result) + tableSelect table n.toNat
      else if n < 0 then (result + result) - tableSelect table (-n).toNat
      else result + result)
    0

/-- Modelled from the spec: `CurveOrderElement::to_wnaf(5)` (the scalar-field
type's windowed-NAF encoding, implemented in `curve_order_elem.rs`, which is
not among the source files).  Spec: "encodes the scalar as a signed-digit
windowed-NAF sequence (window width 5: digits are 0 or odd values in
[-15,15])", least-significant digit first, with value `Σ dᵢ·2^i = n`.
Standard wNAF recurrence: an even scalar emits digit 0 and halves; an odd
scalar emits its signed residue `mods 2^5 ∈ {±1, ±3, …, ±15}`, subtracts it
and halves.  The fuel `n + 1` dominates the recursion depth. -/
def toWnafAux : Nat → Nat → List Int
  | 0, _ => []
  | fuel + 1, n =>
    if n = 0 then []
    else if n % 2 = 1 then
      if n % 32 < 16 then ((n % 32 : Nat) : Int) :: toWnafAux fuel ((n - n % 32) / 2)
      else (((n % 32 : Nat) : Int) - 32) :: toWnafAux fuel ((n + (32 - n % 32)) / 2)
    else 0 :: toWnafAux fuel (n / 2)

def toWnaf (n : Nat) : List Int := toWnafAux (n + 1) n

/-- Modelled from the spec: `to_power_of_2_base(3)` (the scalar-field type's
fixed-radix decomposition, implemented in `curve_order_elem.rs`, not among
the source files).  Spec: "decompose every scalar into fixed-radix-8 digits
(non-negative digits 0..7)", least-significant digit first, value
`Σ dᵢ·8^i = n`. -/
def toBase8Aux : Nat → Nat → List Nat
  | 0, _ => []
  | fuel + 1, n => if n = 0 then [] else n % 8 :: toBase8Aux fuel (n / 8)

def toBase8 (n : Nat) : List Nat := toBase8Aux n n

/-- Modelled from the spec: `scalar_mul_const_time` is supplied by the
underlying curve-point type ("operates via the generic group abstraction's
own constant-time multiply"); mathematically it is the scalar multiple. -/
def scalar_mul_const_time (a : G) (n : Nat) : G := n • a

/-- `scalar_mul_variable_time` (`group_elem.rs` lines 453-458): build the
lookup table for the base, encode the scalar as width-5 wNAF, run `wnaf_mul`. -/
def scalar_mul_variable_time (a : G) (n : Nat) : G :=
  wnaf_mul (lookupTableFrom a) (toWnaf n)

/-- The loop of `get_multiples` (`group_elem.rs` lines 461-468):
`res = vec![self]; for i in 2..=n { res.push(&res[i-2] + self) }`.
`get_multiples_aux a cur k` lists the next `k` pushed values after `cur`. -/
def get_multiples_aux (a : G) : G → Nat → List G
  | _, 0 => []
  | cur, k + 1 => (cur + a) :: get_multiples_aux a (cur + a) k

def get_multiples (a : G) (n : Nat) : List G := a :: get_multiples_aux a a (n - 1)

/-- `ValueError::UnequalSizeVectors` (declared in `errors.rs`, not among the
source files; the spec calls it the "size-mismatch error"). -/
inductive ValueError where
  | UnequalSizeVectors : Nat → Nat → ValueError
deriving DecidableEq

/-- Modelled from the spec: `check_vector_size_for_equality!(a, b)` (macro in
`errors.rs`, not among the source files): "any strategy fails with a
size-mismatch error when scalar-vector and element-vector lengths differ". -/
def checkVectorSizeForEquality (a b : Nat) : Except ValueError Unit :=
  if a = b then Except.ok () else Except.error (ValueError.UnequalSizeVectors a b)

/-- Modelled from the spec: `pad_collection!(c, 0)` (macro not among the
source files): "pad all NAF sequences with trailing zero digits to a common
length (the maximum digit-sequence length among the inputs)".
`maxLength` is that common length (0 for an empty collection). -/
def maxLength {α : Type} (ls : List (List α)) : Nat :=
  ls.foldr (fun l acc => max l.length acc) 0

def padTo {α : Type} (z : α) (L : Nat) (l : List α) : List α :=
  l ++ List.replicate (L - l.length) z

/-- `multi_scalar_mul_const_time_naive` (`group_elem.rs` lines 698-708):
length check, then `accum += self[i] * field_elems[i]` over all indices,
starting from `new()` (the identity). -/
def multi_scalar_mul_const_time_naive (elems : List G) (field_elems : List Nat) :
    Except ValueError G :=
  match checkVectorSizeForEquality field_elems.length elems.length with
  | Except.error e => Except.error e
  | Except.ok _ =>
    Except.ok ((elems.zip field_elems).foldl
      (fun accum p => accum + scalar_mul_const_time p.1 p.2) 0)

/-- The inner loop of the Strauss multiplication (`group_elem.rs` lines
775-781): for every `(naf, lookup_table)` pair, add or subtract the selected
table entry according to the sign of the digit at position `i`. -/
def strauss_step (pairs : List (List Int × List G)) (i : Nat) (t : G) : G :=
  pairs.foldl
    (fun t p =>
      if p.1.getD i 0 > 0 then t + tableSelect p.2 (p.1.getD i 0).toNat
      else if p.1.getD i 0 < 0 then t - tableSelect p.2 (-(p.1.getD i 0)).toNat
      else t)
    t

/-- `multi_scalar_mul_var_time_with_precomputation_done` (`group_elem.rs`
lines 759-786): encode every scalar as width-5 wNAF, check the vector sizes,
pad the NAFs with zeros to a common length, then iterate digit positions from
most significant to least, doubling one shared accumulator and folding in
every pair's contribution. -/
def multi_scalar_mul_var_time_with_precomputation_done (lookup_tables : List (List G))
    (field_elems : List Nat) : Except ValueError G :=
  let nafs := field_elems.map toWnaf
  match checkVectorSizeForEquality nafs.length lookup_tables.length with
  | Except.error e => Except.error e
  | Except.ok _ =>
    let L := maxLength nafs
    Except.ok (((List.range L).reverse).foldl
      (fun r i => strauss_step ((nafs.map (padTo 0 L)).zip lookup_tables) i (r + r)) 0)

/-- `multi_scalar_mul_var_time_without_precomputation` (`group_elem.rs` lines
727-740): build one lookup table per base element, then run the
precomputation-done entry point. -/
def multi_scalar_mul_var_time_without_precomputation (group_elems : List G)
    (field_elems : List Nat) : Except ValueError G :=
  multi_scalar_mul_var_time_with_precomputation_done
    (group_elems.map (fun e => lookupTableFrom e)) field_elems

/-- `multi_scalar_mul_var_time` (`group_elem.rs` lines 719-724). -/
def multi_scalar_mul_var_time (elems : List G) (field_elems : List Nat) :
    Except ValueError G :=
  multi_scalar_mul_var_time_without_precomputation elems field_elems

/-- The inner loop of the windowed constant-time multiplication
(`group_elem.rs` lines 830-838): for every `(digits, multiples)` pair, if the
radix-8 digit at position `i` is nonzero add the `(digit-1)`-th precomputed
multiple. -/
def window_step (pairs : List (List Nat × List G)) (i : Nat) (r : G) : G :=
  pairs.foldl
    (fun r p => if p.1.getD i 0 ≠ 0 then r + p.2.getD (p.1.getD i 0 - 1) 0 else r)
    r

/-- `multi_scalar_mul_const_time_with_precomputation_done` (`group_elem.rs`
lines 808-841): decompose every scalar into radix-8 digits, check the vector
sizes, pad with zeros to a common length, then iterate positions from most
significant to least, doubling the shared accumulator three times
(`r = r * 2^3`) and folding in every pair's contribution. -/
def multi_scalar_mul_const_time_with_precomputation_done
    (group_elem_multiples : List (List G)) (field_elems : List Nat) :
    Except ValueError G :=
  let reprs := field_elems.map toBase8
  match checkVectorSizeForEquality group_elem_multiples.length reprs.length with
  | Except.error e => Except.error e
  | Except.ok _ =>
    let L := maxLength reprs
    Except.ok (((List.range L).reverse).foldl
      (fun r i =>
        window_step ((reprs.map (padTo 0 L)).zip group_elem_multiples) i
          (((r + r) + (r + r)) + ((r + r) + (r + r)))) 0)

/-- `multi_scalar_mul_const_time_without_precomputation` (`group_elem.rs`
lines 791-806): window size 3, so precompute the multiples `A..7A` of every
base and run the precomputation-done entry point. -/
def multi_scalar_mul_const_time_without_precomputation (group_elems : List G)
    (field_elems : List Nat) : Except ValueError G :=
  multi_scalar_mul_const_time_with_precomputation_done
    (group_elems.map (fun e => get_multiples e 7)) field_elems

/-- `multi_scalar_mul_const_time` (`group_elem.rs` lines 711-716). -/
def multi_scalar_mul_const_time (elems : List G) (field_elems : List Nat) :
    Except ValueError G :=
  multi_scalar_mul_const_time_without_precomputation elems field_elems

/-- `scaled_by` (`group_elem.rs` lines 605-613): a new vector whose entries
are `&self[i] * n` (the constant-time multiply). -/
def scaled_by (v : List G) (n : Nat) : List G :=
  v.map (fun e => scalar_mul_const_time e n)

/-- `scale_var_time` (`group_elem.rs` lines 845-851): compute the wNAF of `n`
once and replace every entry by `wnaf_mul` of its own lookup table.  The
source mutates the vector in place; the model returns the final contents. -/
def scale_var_time (v : List G) (n : Nat) : List G :=
  v.map (fun e => wnaf_mul (lookupTableFrom e) (toWnaf n))

/-- `scaled_by_var_time` (`group_elem.rs` lines 853-859): clone, then
`scale_var_time` in place. -/
def scaled_by_var_time (v : List G) (n : Nat) : List G := scale_var_time v n

/-- Specification value of a digit sequence (least significant first) in a
signed base-`B` positional system. -/
def digitValueZ (B : Int) : List Int → Int
  | [] => 0
  | d :: ds => d + B * digitValueZ B ds

/-- Specification value of an unsigned digit sequence, least significant
first, base `B`. -/
def digitValueN (B : Nat) : List Nat → Nat
  | [] => 0
  | d :: ds => d + B * digitValueN B ds

/-- Specification value of the inner product `Σ sᵢ • Aᵢ` that every
multi-scalar-multiplication strategy must compute. -/
def msmValue (elems : List G) (field_elems : List Nat) : G :=
  ((elems.zip field_elems).map (fun p => p.2 • p.1)).sum

/-- Prefix value `Σ_{i<L} d(i)·B^i` of a digit stream (signed). -/
def valUptoZ (B : Int) (d : Nat → Int) : Nat → Int
  | 0 => 0
  | L + 1 => valUptoZ B d L + d L * B ^ L

/-- Prefix value `Σ_{i<L} d(i)·B^i` of a digit stream (unsigned). -/
def valUptoN (B : Nat) (d : Nat → Nat) : Nat → Nat
  | 0 => 0
  | L + 1 => valUptoN B d L + d L * B ^ L

/-- `Σ_{i<L} c^i • C i`: the accumulated contributions of a
most-significant-first shared-doubling loop with doubling factor `c`. -/
def geomContribSum (c : Nat) (C : Nat → G) : Nat → G
  | 0 => 0
  | L + 1 => c ^ L • C L + geomContribSum c C L

/-- Per-pair contribution of one Strauss inner step, as a single group
element (`+select` for a positive digit, `-select` for a negative one). -/
def strauss_contrib (i : Nat) (p : List Int × List G) : G :=
  if p.1.getD i 0 > 0 then tableSelect p.2 (p.1.getD i 0).toNat
  else if p.1.getD i 0 < 0 then -tableSelect p.2 (-(p.1.getD i 0)).toNat
  else 0

/-- Per-pair contribution of one windowed inner step. -/
def window_contrib (i : Nat) (p : List Nat × List G) : G :=
  if p.1.getD i 0 ≠ 0 then p.2.getD (p.1.getD i 0 - 1) 0 else 0

end GroupModel

/-! ### `extension_field_gt.rs`: the pairing pipeline.

The AMCL pairing primitives (`ate`, `ate2`, `fexp`, `initmp`, `another`,
`miller`, `FP12::isunity`) and the point types are external collaborators;
they are collected in a capability structure over abstract types, and the
pipeline of `extension_field_gt.rs` is defined on top of them. -/

/-- Capability set consumed by `extension_field_gt.rs`: identity tests of the
two source groups, the AMCL Miller-loop primitives, the final exponentiation,
the unity test of the extension field and the constructed unity value
(`GT::one()` builds `FP12::new_fp4s(one, zero, zero)`). -/
structure PairingPrims (G1 G2 F A : Type) where
  isId1 : G1 → Bool
  isId2 : G2 → Bool
  ate : G2 → G1 → F
  ate2 : G2 → G1 → G2 → G1 → F
  fexp : F → F
  initmp : A
  another : A → G2 → G1 → A
  miller : A → F
  isunity : F → Bool
  oneGT : F

/-- `GT::ate_pairing` (`extension_field_gt.rs` lines 40-47): if either input
is the group identity return `GT::one()`, else `fexp(ate(g2, g1))` (note the
argument order: G2 point first). -/
def ate_pairing {G1 G2 F A : Type} (P : PairingPrims G1 G2 F A) (g1 : G1) (g2 : G2) : F :=
  if P.isId1 g1 || P.isId2 g2 then P.oneGT
  else P.fexp (P.ate g2 g1)

/-- `GT::ate_2_pairing` (`extension_field_gt.rs` lines 50-60): if the first
pair contains an identity, degrade to the single pairing of the second pair;
if the second pair contains an identity, degrade to the single pairing of the
first pair; else `fexp(ate2(g2, g1, h2, h1))`. -/
def ate_2_pairing {G1 G2 F A : Type} (P : PairingPrims G1 G2 F A)
    (g1 : G1) (g2 : G2) (h1 : G1) (h2 : G2) : F :=
  if P.isId1 g1 || P.isId2 g2 then ate_pairing P h1 h2
  else if P.isId1 h1 || P.isId2 h2 then ate_pairing P g1 g2
  else P.fexp (P.ate2 g2 g1 h2 h1)

/-- `GT::ate_multi_pairing` (`extension_field_gt.rs` lines 65-75): fold every
pair whose components are both non-identity into one shared accumulator
(starting from `initmp`), skip identity pairs entirely, then apply `miller`
and one final exponentiation. -/
def ate_multi_pairing {G1 G2 F A : Type} (P : PairingPrims G1 G2 F A)
    (elems : List (G1 × G2)) : F :=
  P.fexp (P.miller (elems.foldl
    (fun accum p =>
      if P.isId1 p.1 || P.isId2 p.2 then accum
      else P.another accum p.2 p.1)
    P.initmp))

/-- A small concrete instance of the pairing capability set, used to witness
the pairing theorems on computable data. -/
def testPrims : PairingPrims Bool Bool Nat Nat where
  isId1 := fun b => b
  isId2 := fun b => b
  ate := fun _ _ => 2
  ate2 := fun _ _ _ _ => 3
  fexp := fun x => x + 5
  initmp := 0
  another := fun a _ _ => a * 7 + 11
  miller := fun a => a
  isunity := fun x => x == 1
  oneGT := 1

/-! ### Theorems about the Barrett code -/

theorem reduceLoopAux_eq_mod (m : Nat) (hm : 0 < m) :
    ∀ fuel r, r ≤ fuel → reduceLoopAux m fuel r = r % m := by
  intro fuel
  induction fuel with
  | zero =>
    intro r hr
    have : r = 0 := Nat.le_zero.mp hr
    subst this
    simp [reduceLoopAux, Nat.zero_mod]
  | succ fuel ih =>
    intro r hr
    unfold reduceLoopAux
    by_cases h : m ≤ r
    · rw [if_pos h, ih (r - m) (by omega), Nat.mod_eq_sub_mod h]
    · rw [if_neg h, Nat.mod_eq_of_lt (by omega)]

theorem reduceLoop_eq_mod (m r : Nat) (hm : 0 < m) : reduceLoop m r = r % m :=
  reduceLoopAux_eq_mod m hm (r + 1) r (Nat.le_succ r)

theorem nbitsAux_zero_arg : ∀ fuel, nbitsAux fuel 0 = 0
  | 0 => rfl
  | fuel + 1 => by simp [nbitsAux]

theorem nbitsAux_bounds : ∀ fuel n, 0 < n → n ≤ fuel →
    1 ≤ nbitsAux fuel n ∧ 2 ^ (nbitsAux fuel n - 1) ≤ n ∧ n < 2 ^ nbitsAux fuel n := by
  intro fuel
  induction fuel with
  | zero => intro n hn hf; omega
  | succ fuel ih =>
    intro n hn hf
    unfold nbitsAux
    rw [if_neg (by omega)]
    by_cases h2 : n / 2 = 0
    · have hn1 : n = 1 := by omega
      subst hn1
      norm_num [nbitsAux_zero_arg]
    · obtain ⟨hs1, hs2, hs3⟩ := ih (n / 2) (by omega) (by omega)
      set s := nbitsAux fuel (n / 2) with hs
      refine ⟨by omega, ?_, ?_⟩
      · have : 2 ^ s = 2 * 2 ^ (s - 1) := by
          conv_lhs => rw [show s = (s - 1) + 1 by omega, pow_succ]
          ring
        simp only [Nat.add_sub_cancel]
        omega
      · have : 2 ^ (s + 1) = 2 * 2 ^ s := by rw [pow_succ]; ring
        omega

theorem nbits_bounds (n : Nat) (hn : 0 < n) :
    1 ≤ nbits n ∧ 2 ^ (nbits n - 1) ≤ n ∧ n < 2 ^ nbits n :=
  nbitsAux_bounds n n hn (Nat.le_refl n)

theorem barrett_estimate (t m x : Nat) (ht : 0 < t) (hm1 : t ≤ m) (hm2 : m < 2 * t)
    (hx : x < 2 * t * t) :
    (x / t) * ((4 * t * t) / m) / (4 * t) * m ≤ x ∧
    x < (x / t) * ((4 * t * t) / m) / (4 * t) * m + 4 * t := by
  set q1 := x / t with hq1
  set u := (4 * t * t) / m with hu
  set q3 := q1 * u / (4 * t) with hq3
  have hm0 : 0 < m := by omega
  have h4t : 0 < 4 * t := by omega
  have ha : q1 * t ≤ x := Nat.div_mul_le_self x t
  have hb : x < q1 * t + t := by
    have h1 := Nat.div_add_mod x t
    have h2 := Nat.mod_lt x ht
    rw [← hq1] at h1
    linarith
  have hc : u * m ≤ 4 * t * t := Nat.div_mul_le_self _ m
  have hd : 4 * t * t < u * m + m := by
    have h1 := Nat.div_add_mod (4 * t * t) m
    have h2 := Nat.mod_lt (4 * t * t) hm0
    rw [← hu] at h1
    linarith
  have he : q3 * (4 * t) ≤ q1 * u := Nat.div_mul_le_self _ _
  have hf : q1 * u < q3 * (4 * t) + 4 * t := by
    have h1 := Nat.div_add_mod (q1 * u) (4 * t)
    have h2 := Nat.mod_lt (q1 * u) h4t
    rw [← hq3] at h1
    linarith
  have hk : q1 < 2 * t := by
    by_contra hcon
    push_neg at hcon
    have hcon2 : 2 * t * t ≤ q1 * t := mul_le_mul_right' hcon t
    linarith
  constructor
  · have chain : q3 * m * (4 * t) ≤ x * (4 * t) := by
      calc q3 * m * (4 * t) = q3 * (4 * t) * m := by ring
        _ ≤ q1 * u * m := mul_le_mul_right' he m
        _ = q1 * (u * m) := by ring
        _ ≤ q1 * (4 * t * t) := mul_le_mul_left' hc q1
        _ = q1 * t * (4 * t) := by ring
        _ ≤ x * (4 * t) := mul_le_mul_right' ha (4 * t)
    exact Nat.le_of_mul_le_mul_right chain h4t
  · have key : x * (4 * t) < (q3 * m + 4 * t) * (4 * t) := by
      nlinarith [mul_le_mul_right' (Nat.succ_le_of_lt hb) (4 * t),
        mul_le_mul_left' (Nat.succ_le_of_lt hd) q1,
        mul_le_mul_right' (Nat.succ_le_of_lt hf) m,
        mul_le_mul_left' (Nat.succ_le_of_lt hm2) (4 * t),
        mul_le_mul' (Nat.succ_le_of_lt hk) (Nat.succ_le_of_lt hm2)]
    exact lt_of_mul_lt_mul_right key (Nat.zero_le _)

/-- The corrected-subtraction step of `barrett_reduction`: when the true
difference `a - y` lies in `[0, M)`, computing it from the residues
`a mod M` and `y mod M` with the `+ M` wrap-around recovers it exactly. -/
theorem mod_sub_trick (M a y : Nat) (hM : 0 < M) (hyx : y ≤ a) (hlt : a - y < M) :
    (if a % M < y % M then M - (y % M - a % M) else a % M - y % M) = a - y := by
  set d := a - y with hd
  have hdM : d < M := hlt
  have ha : a = y + d := by omega
  have h1 : a % M = (y % M + d) % M := by
    rw [ha, Nat.add_mod, Nat.mod_eq_of_lt hdM]
  set s := y % M with hs
  have hsM : s < M := Nat.mod_lt y hM
  by_cases hcase : s + d < M
  · have h2 : a % M = s + d := by rw [h1, Nat.mod_eq_of_lt hcase]
    rw [h2, if_neg (by omega)]
    omega
  · have hlt2 : s + d - M < M := by omega
    have h2 : a % M = s + d - M := by
      rw [h1, Nat.mod_eq_sub_mod (by omega), Nat.mod_eq_of_lt hlt2]
    rw [h2, if_pos (by omega)]
    omega

/-- Claim C3 (amended): for a modulus `m > 0` with correctly precomputed
parameters (`k` = bit length of `m`, `u = floor(2^(2k)/m)`, `v = 2^(k+1)`)
and a double-width input `x < 2^(2k-1)`, `barrett_reduction` returns exactly
`x mod m`, a value in `[0, m)`.  (The unrestricted claim, for all
`x < 2^(2k)`, is refuted by `barrett_reduction_counterexample` below.) -/
theorem barrett_reduction_computes_mod (x m k u v : Nat) (hm : 0 < m)
    (hk : k = nbits m) (hu : u = 2 ^ (2 * k) / m) (hv : v = 2 ^ (k + 1))
    (hx : x < 2 ^ (2 * k - 1)) :
    barrett_reduction x m k u v = x % m ∧ barrett_reduction x m k u v < m := by
  obtain ⟨hk1, hm1, hm2⟩ := nbits_bounds m hm
  rw [← hk] at hk1 hm1 hm2
  have ht : 0 < 2 ^ (k - 1) := pow_pos (by norm_num) _
  have e1 : 2 ^ (k + 1) = 4 * 2 ^ (k - 1) := by
    rw [show k + 1 = (k - 1) + 2 by omega, pow_add]
    ring
  have e2 : 2 ^ (2 * k) = 4 * 2 ^ (k - 1) * 2 ^ (k - 1) := by
    rw [show 2 * k = ((k - 1) + 2) + (k - 1) by omega, pow_add, pow_add]
    ring
  have e3 : 2 ^ (2 * k - 1) = 2 * 2 ^ (k - 1) * 2 ^ (k - 1) := by
    rw [show 2 * k - 1 = ((k - 1) + 1) + (k - 1) by omega, pow_add, pow_add]
    ring
  have e4 : 2 ^ k = 2 * 2 ^ (k - 1) := by
    conv_lhs => rw [show k = (k - 1) + 1 by omega, pow_succ]
    ring
  rw [e4] at hm2
  rw [e3] at hx
  subst hu hv
  obtain ⟨hA, hB⟩ := barrett_estimate (2 ^ (k - 1)) m x ht hm1 hm2 hx
  have hun : barrett_reduction x m k (2 ^ (2 * k) / m) (2 ^ (k + 1)) =
      reduceLoop m
        (if x % 2 ^ (k + 1) < (x / 2 ^ (k - 1) * (2 ^ (2 * k) / m) / 2 ^ (k + 1)) * m % 2 ^ (k + 1)
         then 2 ^ (k + 1) -
            ((x / 2 ^ (k - 1) * (2 ^ (2 * k) / m) / 2 ^ (k + 1)) * m % 2 ^ (k + 1) -
              x % 2 ^ (k + 1))
         else x % 2 ^ (k + 1) -
            (x / 2 ^ (k - 1) * (2 ^ (2 * k) / m) / 2 ^ (k + 1)) * m % 2 ^ (k + 1)) := rfl
  set q3 := x / 2 ^ (k - 1) * (2 ^ (2 * k) / m) / 2 ^ (k + 1) with hq3def
  have hq3e : x / 2 ^ (k - 1) * (4 * 2 ^ (k - 1) * 2 ^ (k - 1) / m) / (4 * 2 ^ (k - 1)) = q3 := by
    rw [hq3def, e2, e1]
  rw [hq3e] at hA hB
  set y := q3 * m with hy
  have hMpos : 0 < 2 ^ (k + 1) := pow_pos (by norm_num) _
  have hsub : x - y < 2 ^ (k + 1) := by rw [e1]; omega
  have htrick := mod_sub_trick (2 ^ (k + 1)) x y hMpos hA hsub
  rw [hun, htrick, reduceLoop_eq_mod _ _ hm]
  have hxq : x = y + (x - y) := by omega
  constructor
  · conv_rhs => rw [hxq]
    rw [hy, Nat.add_comm (q3 * m) (x - q3 * m), Nat.add_mul_mod_self_right]
  · exact Nat.mod_lt _ hm

/-- Claim C3 counterexample: with the parameters correctly precomputed for
modulus 57 (`k = nbits 57 = 6`, `u = floor(2^12/57) = 71`, `v = 2^7 = 128`)
the double-width input `x = 4061 < 2^12` is reduced to `0`, but
`4061 mod 57 = 14`; the quotient estimate's error reaches `2^(k+1)` and is
lost by the `mod 2^(k+1)` windows, so the returned value differs from
`x mod m` by a multiple of `2^(k+1) mod m ≠ 0`. -/
theorem barrett_reduction_counterexample :
    nbits 57 = 6 ∧ 2 ^ (2 * 6) / 57 = 71 ∧ 2 ^ (6 + 1) = 128 ∧ 4061 < 2 ^ (2 * 6) ∧
    barrett_reduction 4061 57 6 71 128 = 0 ∧ 4061 % 57 = 14 := by
  decide

theorem barrett_reduction_computes_mod_witness :
    (0 < 3 ∧ 2 = nbits 3 ∧ 5 = 2 ^ (2 * 2) / 3 ∧ 8 = 2 ^ (2 + 1) ∧ 5 < 2 ^ (2 * 2 - 1)) ∧
    (barrett_reduction 5 3 2 5 8 = 5 % 3 ∧ barrett_reduction 5 3 2 5 8 < 3) :=
  ⟨by decide,
   barrett_reduction_computes_mod 5 3 2 5 8 (by decide) (by decide) (by decide) (by decide)
     (by decide)⟩

/-- Claim C4 (code bug): `barrett_reduction_params` computes
`u = floor(2^(2k) / CURVE_ORDER)` — dividing by the global curve-order
constant (`utils.rs` line 150) instead of by its `modulus` argument, although
its own doc comment promises `u = floor(2^2k / modulus)`.  For the modulus 5
(bit length `k = 3`) the documented `u` is `floor(2^6/5) = 12`, but whenever
the curve order exceeds `2^6` (every supported curve order is hundreds of
bits) the function returns `u = 0`. -/
theorem barrett_reduction_params_wrong_u (curveOrder : Nat)
    (hc : 2 ^ (2 * nbits 5) < curveOrder) :
    (barrett_reduction_params curveOrder 5).2.1 = 0 ∧ 2 ^ (2 * nbits 5) / 5 = 12 ∧
    (barrett_reduction_params curveOrder 5).2.1 ≠ 2 ^ (2 * nbits 5) / 5 := by
  have h0 : (barrett_reduction_params curveOrder 5).2.1 = 0 := by
    show 2 ^ nbits 5 * 2 ^ nbits 5 / curveOrder = 0
    apply Nat.div_eq_of_lt
    calc 2 ^ nbits 5 * 2 ^ nbits 5 = 2 ^ (2 * nbits 5) := by rw [two_mul, pow_add]
      _ < curveOrder := hc
  refine ⟨h0, by decide, ?_⟩
  rw [h0]
  decide

theorem barrett_reduction_params_wrong_u_witness :
    2 ^ (2 * nbits 5) < 1000 ∧
    ((barrett_reduction_params 1000 5).2.1 = 0 ∧ 2 ^ (2 * nbits 5) / 5 = 12 ∧
      (barrett_reduction_params 1000 5).2.1 ≠ 2 ^ (2 * nbits 5) / 5) :=
  ⟨by decide, barrett_reduction_params_wrong_u 1000 (by decide)⟩

/-! ### Lookup-table theorems -/

theorem tableEntries_getD {G : Type} [AddCommGroup G] (a2 : G) :
    ∀ (n : Nat) (cur : G) (j : Nat), j < n →
      (tableEntries a2 cur n).getD j 0 = cur + j • a2 := by
  intro n
  induction n with
  | zero => intro cur j hj; omega
  | succ n ih =>
    intro cur j hj
    cases j with
    | zero => simp [tableEntries]
    | succ j =>
      rw [tableEntries, List.getD_cons_succ, ih (cur + a2) j (by omega), succ_nsmul]
      abel

theorem tableEntries_length {G : Type} [AddCommGroup G] (a2 : G) :
    ∀ (n : Nat) (cur : G), (tableEntries a2 cur n).length = n := by
  intro n
  induction n with
  | zero => intro cur; rfl
  | succ n ih => intro cur; simp [tableEntries, ih]

theorem lookupTableFrom_select {G : Type} [AddCommGroup G] (a : G) (x : Nat)
    (hodd : x % 2 = 1) (hx : x < 16) :
    tableSelect (lookupTableFrom a) x = x • a := by
  unfold tableSelect lookupTableFrom
  rw [tableEntries_getD (a + a) 8 a (x / 2) (by omega)]
  have hsplit : x = 2 * (x / 2) + 1 := by omega
  rw [smul_add]
  conv_rhs => rw [hsplit, add_nsmul, two_mul, add_nsmul, one_nsmul]
  abel

/-- Claim C5: the lookup table built from a base element `A` has exactly
eight entries; for every odd `x ∈ {1,3,…,15}`, `select(x)` returns `x • A`,
and that entry is the `(x-1)/2`-th table entry. -/
theorem lookup_table_holds_odd_multiples {G : Type} [AddCommGroup G] (a : G) (x : Nat)
    (hodd : x % 2 = 1) (hx : x < 16) :
    (lookupTableFrom a).length = 8 ∧
    tableSelect (lookupTableFrom a) x = x • a ∧
    tableSelect (lookupTableFrom a) x = (lookupTableFrom a).getD ((x - 1) / 2) 0 := by
  refine ⟨tableEntries_length (a + a) 8 a, lookupTableFrom_select a x hodd hx, ?_⟩
  unfold tableSelect
  rw [show (x - 1) / 2 = x / 2 by omega]

theorem lookup_table_holds_odd_multiples_witness :
    (7 % 2 = 1 ∧ 7 < 16) ∧
    ((lookupTableFrom (2 : ℤ)).length = 8 ∧
      tableSelect (lookupTableFrom (2 : ℤ)) 7 = 7 • (2 : ℤ) ∧
      tableSelect (lookupTableFrom (2 : ℤ)) 7 = (lookupTableFrom (2 : ℤ)).getD ((7 - 1) / 2) 0) :=
  ⟨by decide, lookup_table_holds_odd_multiples (2 : ℤ) 7 (by decide) (by decide)⟩

/-! ### wNAF encoding theorems -/

theorem toWnafAux_valid : ∀ fuel n d, d ∈ toWnafAux fuel n →
    d = 0 ∨ (d.natAbs % 2 = 1 ∧ d.natAbs < 16) := by
  intro fuel
  induction fuel with
  | zero => intro n d hd; simp [toWnafAux] at hd
  | succ fuel ih =>
    intro n d hd
    unfold toWnafAux at hd
    by_cases h0 : n = 0
    · simp [h0] at hd
    rw [if_neg h0] at hd
    by_cases hodd : n % 2 = 1
    · rw [if_pos hodd] at hd
      by_cases hr : n % 32 < 16
      · rw [if_pos hr] at hd
        rcases List.mem_cons.mp hd with h | h
        · subst h
          right
          constructor <;> omega
        · exact ih _ d h
      · rw [if_neg hr] at hd
        rcases List.mem_cons.mp hd with h | h
        · subst h
          right
          have h32 : n % 32 < 32 := Nat.mod_lt n (by omega)
          constructor <;> omega
        · exact ih _ d h
    · rw [if_neg hodd] at hd
      rcases List.mem_cons.mp hd with h | h
      · exact Or.inl h
      · exact ih _ d h

theorem toWnafAux_value : ∀ fuel n, n ≤ fuel →
    digitValueZ 2 (toWnafAux fuel n) = n := by
  intro fuel
  induction fuel with
  | zero =>
    intro n hn
    have : n = 0 := by omega
    subst this
    rfl
  | succ fuel ih =>
    intro n hn
    unfold toWnafAux
    by_cases h0 : n = 0
    · simp [h0, digitValueZ]
    rw [if_neg h0]
    by_cases hodd : n % 2 = 1
    · rw [if_pos hodd]
      have h32 : n % 32 < 32 := Nat.mod_lt n (by omega)
      have h322 : n % 32 % 2 = 1 := by omega
      by_cases hr : n % 32 < 16
      · rw [if_pos hr]
        have hrle : n % 32 ≤ n := Nat.mod_le n 32
        rw [digitValueZ, ih ((n - n % 32) / 2) (by omega)]
        have hev : (n - n % 32) % 2 = 0 := by omega
        push_cast
        omega
      · rw [if_neg hr]
        have hn17 : 17 ≤ n := by omega
        rw [digitValueZ, ih ((n + (32 - n % 32)) / 2) (by omega)]
        have hev : (n + (32 - n % 32)) % 2 = 0 := by omega
        push_cast
        omega
    · rw [if_neg hodd]
      rw [digitValueZ, ih (n / 2) (by omega)]
      push_cast
      omega

theorem toWnaf_valid (n : Nat) : ∀ d ∈ toWnaf n,
    d = 0 ∨ (d.natAbs % 2 = 1 ∧ d.natAbs < 16) :=
  fun d hd => toWnafAux_valid (n + 1) n d hd

theorem toWnaf_value (n : Nat) : digitValueZ 2 (toWnaf n) = n :=
  toWnafAux_value (n + 1) n (by omega)

/-! ### `wnaf_mul` theorems -/

theorem wnaf_mul_cons {G : Type} [AddCommGroup G] (table : List G) (d : Int) (ds : List Int) :
    wnaf_mul table (d :: ds) =
      (if d > 0 then (wnaf_mul table ds + wnaf_mul table ds) + tableSelect table d.toNat
       else if d < 0 then (wnaf_mul table ds + wnaf_mul table ds) - tableSelect table (-d).toNat
       else wnaf_mul table ds + wnaf_mul table ds) := by
  unfold wnaf_mul
  rw [List.reverse_cons, List.foldl_append, List.foldl_cons, List.foldl_nil]

theorem wnaf_mul_eq_smul {G : Type} [AddCommGroup G] (a : G) (ds : List Int)
    (hvalid : ∀ d ∈ ds, d = 0 ∨ (d.natAbs % 2 = 1 ∧ d.natAbs < 16)) :
    wnaf_mul (lookupTableFrom a) ds = digitValueZ 2 ds • a := by
  induction ds with
  | nil => simp [wnaf_mul, digitValueZ]
  | cons d ds ih =>
    have hd := hvalid d (List.mem_cons_self d ds)
    have ih' := ih (fun e he => hvalid e (List.mem_cons_of_mem d he))
    rw [wnaf_mul_cons, ih']
    show _ = digitValueZ 2 (d :: ds) • a
    rw [digitValueZ]
    by_cases h1 : d > 0
    · rw [if_pos h1]
      have hv : d.natAbs % 2 = 1 ∧ d.natAbs < 16 := by
        rcases hd with h | h
        · omega
        · exact h
      have htn : d.toNat % 2 = 1 ∧ d.toNat < 16 := by omega
      rw [lookupTableFrom_select a d.toNat htn.1 htn.2]
      have hcast : (d.toNat : Int) = d := Int.toNat_of_nonneg (by omega)
      rw [← natCast_zsmul a d.toNat, hcast]
      rw [add_zsmul, mul_zsmul, two_zsmul]
      abel
    · rw [if_neg h1]
      by_cases h2 : d < 0
      · rw [if_pos h2]
        have hv : d.natAbs % 2 = 1 ∧ d.natAbs < 16 := by
          rcases hd with h | h
          · omega
          · exact h
        have htn : (-d).toNat % 2 = 1 ∧ (-d).toNat < 16 := by omega
        rw [lookupTableFrom_select a (-d).toNat htn.1 htn.2]
        have hcast : ((-d).toNat : Int) = -d := Int.toNat_of_nonneg (by omega)
        rw [← natCast_zsmul a (-d).toNat, hcast]
        rw [add_zsmul, mul_zsmul, two_zsmul, neg_zsmul, sub_eq_add_neg, neg_neg]
        abel
      · have h0 : d = 0 := by omega
        rw [if_neg h2, h0]
        rw [add_zsmul, mul_zsmul, two_zsmul, zero_zsmul, zero_add]

/-- Claim C2: for every group element `A` and scalar `r`, the variable-time
windowed-NAF multiplication equals the constant-time multiplication:
`scalar_mul_variable_time(A, r) = scalar_mul_const_time(A, r)`. -/
theorem scalar_mul_variable_time_eq_const_time {G : Type} [AddCommGroup G]
    (a : G) (r : Nat) :
    scalar_mul_variable_time a r = scalar_mul_const_time a r := by
  unfold scalar_mul_variable_time scalar_mul_const_time
  rw [wnaf_mul_eq_smul a (toWnaf r) (toWnaf_valid r), toWnaf_value, natCast_zsmul]

/-- Claim C10: for every group-element vector `V` and scalar `n`, the
variable-time vector scaling agrees with the constant-time one
(`scaled_by_var_time(V, n) = scaled_by(V, n)`), and `scale_var_time` leaves
`V` holding that same value. -/
theorem scale_var_time_agrees_with_scaled_by {G : Type} [AddCommGroup G]
    (v : List G) (n : Nat) :
    scaled_by_var_time v n = scaled_by v n ∧ scale_var_time v n = scaled_by v n := by
  have h : scale_var_time v n = scaled_by v n := by
    unfold scale_var_time scaled_by
    apply List.map_congr_left
    intro e _
    rw [wnaf_mul_eq_smul e (toWnaf n) (toWnaf_valid n), toWnaf_value, natCast_zsmul]
    rfl
  exact ⟨h, h⟩

/-! ### Shared-accumulator loop decomposition -/

theorem strauss_step_eq {G : Type} [AddCommGroup G]
    (pairs : List (List Int × List G)) (i : Nat) :
    ∀ t : G, strauss_step pairs i t = t + (pairs.map (strauss_contrib i)).sum := by
  induction pairs with
  | nil => intro t; simp [strauss_step]
  | cons p ps ih =>
    intro t
    have hstep : strauss_step (p :: ps) i t =
        strauss_step ps i
          (if p.1.getD i 0 > 0 then t + tableSelect p.2 (p.1.getD i 0).toNat
           else if p.1.getD i 0 < 0 then t - tableSelect p.2 (-(p.1.getD i 0)).toNat
           else t) := rfl
    rw [hstep, ih, List.map_cons, List.sum_cons]
    unfold strauss_contrib
    split_ifs <;> abel

theorem window_step_eq {G : Type} [AddCommGroup G]
    (pairs : List (List Nat × List G)) (i : Nat) :
    ∀ r : G, window_step pairs i r = r + (pairs.map (window_contrib i)).sum := by
  induction pairs with
  | nil => intro r; simp [window_step]
  | cons p ps ih =>
    intro r
    have hstep : window_step (p :: ps) i r =
        window_step ps i
          (if p.1.getD i 0 ≠ 0 then r + p.2.getD (p.1.getD i 0 - 1) 0 else r) := rfl
    rw [hstep, ih, List.map_cons, List.sum_cons]
    unfold window_contrib
    split_ifs <;> abel

theorem foldl_rev_range {G : Type} [AddCommGroup G] (c : Nat) (C : Nat → G)
    (f : G → Nat → G) (hf : ∀ r i, f r i = c • r + C i) :
    ∀ (L : Nat) (r : G),
      ((List.range L).reverse).foldl f r = c ^ L • r + geomContribSum c C L := by
  intro L
  induction L with
  | zero => intro r; simp [geomContribSum]
  | succ L ih =>
    intro r
    rw [List.range_succ, List.reverse_append, List.reverse_singleton,
      List.singleton_append, List.foldl_cons, ih, hf, smul_add, smul_smul,
      ← pow_succ, geomContribSum]
    abel

theorem geomContribSum_zero {G : Type} [AddCommGroup G] (c : Nat) :
    ∀ L : Nat, geomContribSum c (fun _ => (0 : G)) L = 0 := by
  intro L
  induction L with
  | zero => rfl
  | succ L ih => rw [geomContribSum, ih, smul_zero, add_zero]

theorem geomContribSum_add {G : Type} [AddCommGroup G] (c : Nat) (C D : Nat → G) :
    ∀ L : Nat, geomContribSum c (fun i => C i + D i) L =
      geomContribSum c C L + geomContribSum c D L := by
  intro L
  induction L with
  | zero => simp [geomContribSum]
  | succ L ih =>
    rw [geomContribSum, ih, geomContribSum, geomContribSum, smul_add]
    abel

theorem geomContribSum_list {α G : Type} [AddCommGroup G] (c : Nat)
    (g : α → Nat → G) :
    ∀ (ps : List α) (L : Nat),
      geomContribSum c (fun i => (ps.map (fun p => g p i)).sum) L =
        (ps.map (fun p => geomContribSum c (g p) L)).sum := by
  intro ps
  induction ps with
  | nil =>
    intro L
    simp only [List.map_nil, List.sum_nil]
    exact geomContribSum_zero c L
  | cons p ps ih =>
    intro L
    simp only [List.map_cons, List.sum_cons]
    rw [geomContribSum_add, ih]

theorem geomContribSum_zsmul {G : Type} [AddCommGroup G] (a : G) (d : Nat → Int) :
    ∀ L : Nat, geomContribSum 2 (fun i => d i • a) L = valUptoZ 2 d L • a := by
  intro L
  induction L with
  | zero => simp [geomContribSum, valUptoZ]
  | succ L ih =>
    rw [geomContribSum, ih, valUptoZ, add_zsmul, ← natCast_zsmul (d L • a) (2 ^ L),
      smul_smul]
    push_cast
    rw [mul_comm ((2 : Int) ^ L) (d L)]
    abel

theorem geomContribSum_nsmul {G : Type} [AddCommGroup G] (a : G) (d : Nat → Nat) :
    ∀ L : Nat, geomContribSum 8 (fun i => d i • a) L = valUptoN 8 d L • a := by
  intro L
  induction L with
  | zero => simp [geomContribSum, valUptoN]
  | succ L ih =>
    rw [geomContribSum, ih, valUptoN, add_nsmul, smul_smul, mul_comm (8 ^ L) (d L)]
    abel

/-! ### Digit-sequence value bookkeeping -/

theorem valUptoZ_nil : ∀ L : Nat, valUptoZ 2 (fun i => (List.nil : List Int).getD i 0) L = 0 := by
  intro L
  induction L with
  | zero => rfl
  | succ L ih => rw [valUptoZ, ih, List.getD_nil]; ring

theorem valUptoZ_cons (x : Int) (l : List Int) :
    ∀ L : Nat, valUptoZ 2 (fun i => (x :: l).getD i 0) (L + 1) =
      x + 2 * valUptoZ 2 (fun i => l.getD i 0) L := by
  intro L
  induction L with
  | zero => simp [valUptoZ]
  | succ L ih =>
    rw [show L + 1 + 1 = (L + 1) + 1 from rfl, valUptoZ, ih, valUptoZ,
      List.getD_cons_succ]
    ring

theorem valUptoZ_eq_digitValue (l : List Int) :
    ∀ L : Nat, l.length ≤ L → valUptoZ 2 (fun i => l.getD i 0) L = digitValueZ 2 l := by
  induction l with
  | nil => intro L _; rw [valUptoZ_nil]; rfl
  | cons x xs ih =>
    intro L hL
    obtain ⟨L', rfl⟩ : ∃ L', L = L' + 1 := ⟨L - 1, by simp at hL; omega⟩
    rw [valUptoZ_cons, ih L' (by simp at hL; omega)]
    rfl

theorem valUptoN_nil : ∀ L : Nat, valUptoN 8 (fun i => (List.nil : List Nat).getD i 0) L = 0 := by
  intro L
  induction L with
  | zero => rfl
  | succ L ih => rw [valUptoN, ih, List.getD_nil]; ring

theorem valUptoN_cons (x : Nat) (l : List Nat) :
    ∀ L : Nat, valUptoN 8 (fun i => (x :: l).getD i 0) (L + 1) =
      x + 8 * valUptoN 8 (fun i => l.getD i 0) L := by
  intro L
  induction L with
  | zero => simp [valUptoN]
  | succ L ih =>
    rw [show L + 1 + 1 = (L + 1) + 1 from rfl, valUptoN, ih, valUptoN,
      List.getD_cons_succ]
    ring

theorem valUptoN_eq_digitValue (l : List Nat) :
    ∀ L : Nat, l.length ≤ L → valUptoN 8 (fun i => l.getD i 0) L = digitValueN 8 l := by
  induction l with
  | nil => intro L _; rw [valUptoN_nil]; rfl
  | cons x xs ih =>
    intro L hL
    obtain ⟨L', rfl⟩ : ∃ L', L = L' + 1 := ⟨L - 1, by simp at hL; omega⟩
    rw [valUptoN_cons, ih L' (by simp at hL; omega)]
    rfl

theorem digitValueZ_replicate_zero : ∀ k : Nat, digitValueZ 2 (List.replicate k 0) = 0 := by
  intro k
  induction k with
  | zero => rfl
  | succ k ih => rw [List.replicate_succ, digitValueZ, ih]; ring

theorem digitValueZ_pad (l : List Int) (k : Nat) :
    digitValueZ 2 (l ++ List.replicate k 0) = digitValueZ 2 l := by
  induction l with
  | nil => rw [List.nil_append, digitValueZ_replicate_zero]; rfl
  | cons x xs ih => rw [List.cons_append, digitValueZ, ih]; rfl

theorem digitValueN_replicate_zero : ∀ k : Nat, digitValueN 8 (List.replicate k 0) = 0 := by
  intro k
  induction k with
  | zero => rfl
  | succ k ih => rw [List.replicate_succ, digitValueN, ih]

theorem digitValueN_pad (l : List Nat) (k : Nat) :
    digitValueN 8 (l ++ List.replicate k 0) = digitValueN 8 l := by
  induction l with
  | nil => rw [List.nil_append, digitValueN_replicate_zero]; rfl
  | cons x xs ih => rw [List.cons_append, digitValueN, ih]; rfl

theorem padTo_length {α : Type} (z : α) (L : Nat) (l : List α) (h : l.length ≤ L) :
    (padTo z L l).length = L := by
  simp only [padTo, List.length_append, List.length_replicate]
  omega

theorem maxLength_le {α : Type} : ∀ (ls : List (List α)) (l : List α), l ∈ ls →
    l.length ≤ maxLength ls := by
  intro ls
  induction ls with
  | nil => intro l hl; simp at hl
  | cons x xs ih =>
    intro l hl
    rcases List.mem_cons.mp hl with h | h
    · subst h
      simp only [maxLength, List.foldr_cons]
      omega
    · have := ih l h
      simp only [maxLength, List.foldr_cons] at this ⊢
      omega

/-! ### `get_multiples` and radix-8 digits -/

theorem get_multiples_aux_getD {G : Type} [AddCommGroup G] (a : G) :
    ∀ (k : Nat) (cur : G) (j : Nat), j < k →
      (get_multiples_aux a cur k).getD j 0 = cur + (j + 1) • a := by
  intro k
  induction k with
  | zero => intro cur j hj; omega
  | succ k ih =>
    intro cur j hj
    cases j with
    | zero => simp [get_multiples_aux, one_nsmul]
    | succ j =>
      rw [get_multiples_aux, List.getD_cons_succ, ih (cur + a) j (by omega),
        succ_nsmul (n := j + 1)]
      abel

theorem get_multiples_getD {G : Type} [AddCommGroup G] (a : G) (n j : Nat) (hj : j < n) :
    (get_multiples a n).getD j 0 = (j + 1) • a := by
  unfold get_multiples
  cases j with
  | zero => simp [one_nsmul]
  | succ j =>
    rw [List.getD_cons_succ, get_multiples_aux_getD a (n - 1) a j (by omega),
      succ_nsmul (n := j + 1)]
    abel

theorem toBase8Aux_digits : ∀ fuel n d, d ∈ toBase8Aux fuel n → d < 8 := by
  intro fuel
  induction fuel with
  | zero => intro n d hd; simp [toBase8Aux] at hd
  | succ fuel ih =>
    intro n d hd
    unfold toBase8Aux at hd
    by_cases h0 : n = 0
    · simp [h0] at hd
    rw [if_neg h0] at hd
    rcases List.mem_cons.mp hd with h | h
    · subst h; omega
    · exact ih _ d h

theorem toBase8Aux_value : ∀ fuel n, n ≤ fuel → digitValueN 8 (toBase8Aux fuel n) = n := by
  intro fuel
  induction fuel with
  | zero =>
    intro n hn
    have : n = 0 := by omega
    subst this
    rfl
  | succ fuel ih =>
    intro n hn
    unfold toBase8Aux
    by_cases h0 : n = 0
    · simp [h0, digitValueN]
    rw [if_neg h0, digitValueN, ih (n / 8) (by omega)]
    omega

theorem toBase8_digits (n : Nat) : ∀ d ∈ toBase8 n, d < 8 :=
  fun d hd => toBase8Aux_digits n n d hd

theorem toBase8_value (n : Nat) : digitValueN 8 (toBase8 n) = n :=
  toBase8Aux_value n n (Nat.le_refl n)

/-! ### Per-pair contributions of the multi-scalar loops -/

theorem padTo_wnaf_valid (L s : Nat) :
    ∀ d ∈ padTo 0 L (toWnaf s), d = 0 ∨ (d.natAbs % 2 = 1 ∧ d.natAbs < 16) := by
  intro d hd
  rcases List.mem_append.mp hd with h | h
  · exact toWnaf_valid s d h
  · exact Or.inl (List.eq_of_mem_replicate h)

theorem strauss_contrib_eq {G : Type} [AddCommGroup G] (A : G) (naf : List Int) (i : Nat)
    (hvalid : ∀ d ∈ naf, d = 0 ∨ (d.natAbs % 2 = 1 ∧ d.natAbs < 16)) :
    strauss_contrib i (naf, lookupTableFrom A) = naf.getD i 0 • A := by
  have hd : naf.getD i 0 = 0 ∨ ((naf.getD i 0).natAbs % 2 = 1 ∧ (naf.getD i 0).natAbs < 16) := by
    by_cases hi : i < naf.length
    · exact hvalid _ (List.getD_eq_getElem naf 0 hi ▸ List.getElem_mem hi)
    · exact Or.inl (List.getD_eq_default naf 0 (by omega))
  unfold strauss_contrib
  simp only
  set d := naf.getD i 0 with hdd
  by_cases h1 : d > 0
  · rw [if_pos h1]
    have hv : d.natAbs % 2 = 1 ∧ d.natAbs < 16 := by rcases hd with h | h; omega; exact h
    have htn : d.toNat % 2 = 1 ∧ d.toNat < 16 := by omega
    rw [tableSelect, ← tableSelect, lookupTableFrom_select A d.toNat htn.1 htn.2,
      ← natCast_zsmul A d.toNat, Int.toNat_of_nonneg (by omega)]
  · rw [if_neg h1]
    by_cases h2 : d < 0
    · rw [if_pos h2]
      have hv : d.natAbs % 2 = 1 ∧ d.natAbs < 16 := by rcases hd with h | h; omega; exact h
      have htn : (-d).toNat % 2 = 1 ∧ (-d).toNat < 16 := by omega
      rw [tableSelect, ← tableSelect, lookupTableFrom_select A (-d).toNat htn.1 htn.2,
        ← natCast_zsmul A (-d).toNat, Int.toNat_of_nonneg (by omega), neg_zsmul, neg_neg]
    · have h0 : d = 0 := by omega
      rw [if_neg h2, h0, zero_zsmul]

theorem padTo_base8_valid (L s : Nat) :
    ∀ d ∈ padTo 0 L (toBase8 s), d < 8 := by
  intro d hd
  rcases List.mem_append.mp hd with h | h
  · exact toBase8_digits s d h
  · rw [List.eq_of_mem_replicate h]; omega

theorem window_contrib_eq {G : Type} [AddCommGroup G] (A : G) (digits : List Nat) (i : Nat)
    (hvalid : ∀ d ∈ digits, d < 8) :
    window_contrib i (digits, get_multiples A 7) = digits.getD i 0 • A := by
  have hd : digits.getD i 0 < 8 := by
    by_cases hi : i < digits.length
    · exact hvalid _ (List.getD_eq_getElem digits 0 hi ▸ List.getElem_mem hi)
    · rw [List.getD_eq_default digits 0 (by omega)]; omega
  unfold window_contrib
  simp only
  set b := digits.getD i 0 with hbb
  by_cases h0 : b ≠ 0
  · rw [if_pos h0, get_multiples_getD A 7 (b - 1) (by omega),
      show b - 1 + 1 = b by omega]
  · rw [if_neg h0]
    push_neg at h0
    rw [h0, zero_smul]

/-! ### The three multi-scalar-multiplication strategies -/

theorem foldl_add_eq_sum {α G : Type} [AddCommGroup G] (g : α → G) :
    ∀ (l : List α) (r : G), l.foldl (fun acc p => acc + g p) r = r + (l.map g).sum := by
  intro l
  induction l with
  | nil => intro r; simp
  | cons x xs ih =>
    intro r
    rw [List.foldl_cons, ih, List.map_cons, List.sum_cons]
    abel

theorem msmValue_zip_comm {G : Type} [AddCommGroup G] :
    ∀ (elems : List G) (scalars : List Nat),
      ((scalars.zip elems).map (fun q => q.1 • q.2)).sum = msmValue elems scalars := by
  intro elems
  induction elems with
  | nil => intro scalars; cases scalars <;> rfl
  | cons e es ih =>
    intro scalars
    cases scalars with
    | nil => rfl
    | cons s ss =>
      rw [List.zip_cons_cons, List.map_cons, List.sum_cons, ih ss]
      simp [msmValue, List.zip_cons_cons]

theorem msm_naive_ok {G : Type} [AddCommGroup G] (elems : List G) (scalars : List Nat)
    (h : elems.length = scalars.length) :
    multi_scalar_mul_const_time_naive elems scalars = Except.ok (msmValue elems scalars) := by
  unfold multi_scalar_mul_const_time_naive checkVectorSizeForEquality
  rw [if_pos h.symm]
  show Except.ok _ = _
  rw [foldl_add_eq_sum (fun p => scalar_mul_const_time p.1 p.2) (elems.zip scalars) 0,
    zero_add]
  rfl

theorem msm_var_ok {G : Type} [AddCommGroup G] (elems : List G) (scalars : List Nat)
    (h : elems.length = scalars.length) :
    multi_scalar_mul_var_time elems scalars = Except.ok (msmValue elems scalars) := by
  unfold multi_scalar_mul_var_time multi_scalar_mul_var_time_without_precomputation
    multi_scalar_mul_var_time_with_precomputation_done checkVectorSizeForEquality
  simp only [List.length_map]
  rw [if_pos h.symm]
  show Except.ok _ = _
  congr 1
  set L := maxLength (scalars.map toWnaf) with hL
  have hpairs : ((scalars.map toWnaf).map (padTo 0 L)).zip (elems.map fun e => lookupTableFrom e)
      = (scalars.zip elems).map
          (Prod.map (fun s => padTo 0 L (toWnaf s)) (fun e => lookupTableFrom e)) := by
    rw [List.map_map, List.zip_map]
    rfl
  rw [hpairs]
  have hf : ∀ (r : G) (i : Nat),
      strauss_step
        ((scalars.zip elems).map
          (Prod.map (fun s => padTo 0 L (toWnaf s)) (fun e => lookupTableFrom e))) i (r + r)
      = 2 • r + ((scalars.zip elems).map
          (fun q => (padTo 0 L (toWnaf q.1)).getD i 0 • q.2)).sum := by
    intro r i
    rw [strauss_step_eq, List.map_map, two_nsmul]
    congr 1
    apply congrArg List.sum
    apply List.map_congr_left
    intro q _
    show strauss_contrib i (padTo 0 L (toWnaf q.1), lookupTableFrom q.2) = _
    exact strauss_contrib_eq q.2 _ i (padTo_wnaf_valid L q.1)
  rw [foldl_rev_range 2 _ _ hf L 0, smul_zero, zero_add]
  calc geomContribSum 2
        (fun i => ((scalars.zip elems).map
          (fun q => (padTo 0 L (toWnaf q.1)).getD i 0 • q.2)).sum) L
      = ((scalars.zip elems).map
          (fun q => geomContribSum 2 (fun i => (padTo 0 L (toWnaf q.1)).getD i 0 • q.2) L)).sum :=
        geomContribSum_list 2 (fun q i => (padTo 0 L (toWnaf q.1)).getD i 0 • q.2)
          (scalars.zip elems) L
    _ = ((scalars.zip elems).map (fun q => q.1 • q.2)).sum := by
        apply congrArg List.sum
        apply List.map_congr_left
        intro q hq
        have hmem : toWnaf q.1 ∈ scalars.map toWnaf :=
          List.mem_map_of_mem toWnaf (List.of_mem_zip hq).1
        have hlen : (toWnaf q.1).length ≤ L := maxLength_le _ _ hmem
        have hplen : (padTo 0 L (toWnaf q.1)).length ≤ L := by
          rw [padTo_length 0 L _ hlen]
        calc geomContribSum 2 (fun i => (padTo 0 L (toWnaf q.1)).getD i 0 • q.2) L
            = valUptoZ 2 (fun i => (padTo 0 L (toWnaf q.1)).getD i 0) L • q.2 :=
              geomContribSum_zsmul q.2 _ L
          _ = digitValueZ 2 (padTo 0 L (toWnaf q.1)) • q.2 := by
              rw [valUptoZ_eq_digitValue _ L hplen]
          _ = q.1 • q.2 := by
              rw [padTo, digitValueZ_pad, toWnaf_value, natCast_zsmul]
    _ = msmValue elems scalars := msmValue_zip_comm elems scalars

theorem msm_const_ok {G : Type} [AddCommGroup G] (elems : List G) (scalars : List Nat)
    (h : elems.length = scalars.length) :
    multi_scalar_mul_const_time_without_precomputation elems scalars =
      Except.ok (msmValue elems scalars) := by
  unfold multi_scalar_mul_const_time_without_precomputation
    multi_scalar_mul_const_time_with_precomputation_done checkVectorSizeForEquality
  simp only [List.length_map]
  rw [if_pos h]
  show Except.ok _ = _
  congr 1
  set L := maxLength (scalars.map toBase8) with hL
  have hpairs : ((scalars.map toBase8).map (padTo 0 L)).zip
        (elems.map fun e => get_multiples e 7)
      = (scalars.zip elems).map
          (Prod.map (fun s => padTo 0 L (toBase8 s)) (fun e => get_multiples e 7)) := by
    rw [List.map_map, List.zip_map]
    rfl
  rw [hpairs]
  have hf : ∀ (r : G) (i : Nat),
      window_step
        ((scalars.zip elems).map
          (Prod.map (fun s => padTo 0 L (toBase8 s)) (fun e => get_multiples e 7))) i
        (((r + r) + (r + r)) + ((r + r) + (r + r)))
      = 8 • r + ((scalars.zip elems).map
          (fun q => (padTo 0 L (toBase8 q.1)).getD i 0 • q.2)).sum := by
    intro r i
    rw [window_step_eq, List.map_map]
    have h8 : ((r + r) + (r + r)) + ((r + r) + (r + r)) = 8 • r := by
      rw [show (8 : Nat) = 2 + 2 + (2 + 2) by rfl, add_nsmul, add_nsmul, two_nsmul]
    rw [h8]
    congr 1
    apply congrArg List.sum
    apply List.map_congr_left
    intro q _
    show window_contrib i (padTo 0 L (toBase8 q.1), get_multiples q.2 7) = _
    exact window_contrib_eq q.2 _ i (padTo_base8_valid L q.1)
  rw [foldl_rev_range 8 _ _ hf L 0, smul_zero, zero_add]
  calc geomContribSum 8
        (fun i => ((scalars.zip elems).map
          (fun q => (padTo 0 L (toBase8 q.1)).getD i 0 • q.2)).sum) L
      = ((scalars.zip elems).map
          (fun q => geomContribSum 8 (fun i => (padTo 0 L (toBase8 q.1)).getD i 0 • q.2) L)).sum :=
        geomContribSum_list 8 (fun q i => (padTo 0 L (toBase8 q.1)).getD i 0 • q.2)
          (scalars.zip elems) L
    _ = ((scalars.zip elems).map (fun q => q.1 • q.2)).sum := by
        apply congrArg List.sum
        apply List.map_congr_left
        intro q hq
        have hmem : toBase8 q.1 ∈ scalars.map toBase8 :=
          List.mem_map_of_mem toBase8 (List.of_mem_zip hq).1
        have hlen : (toBase8 q.1).length ≤ L := maxLength_le _ _ hmem
        have hplen : (padTo 0 L (toBase8 q.1)).length ≤ L := by
          rw [padTo_length 0 L _ hlen]
        calc geomContribSum 8 (fun i => (padTo 0 L (toBase8 q.1)).getD i 0 • q.2) L
            = valUptoN 8 (fun i => (padTo 0 L (toBase8 q.1)).getD i 0) L • q.2 :=
              geomContribSum_nsmul q.2 _ L
          _ = digitValueN 8 (padTo 0 L (toBase8 q.1)) • q.2 := by
              rw [valUptoN_eq_digitValue _ L hplen]
          _ = q.1 • q.2 := by
              rw [padTo, digitValueN_pad, toBase8_value]
    _ = msmValue elems scalars := msmValue_zip_comm elems scalars

/-- Claim C1: for every pair of equal-length vectors of group elements and
scalars, the three multi-scalar multiplication strategies return the same
group element (each one computes `Σ sᵢ • Aᵢ`):
`multi_scalar_mul_const_time_naive = multi_scalar_mul_var_time =
multi_scalar_mul_const_time_without_precomputation`. -/
theorem multi_scalar_mul_strategies_agree {G : Type} [AddCommGroup G]
    (elems : List G) (scalars : List Nat) (h : elems.length = scalars.length) :
    multi_scalar_mul_const_time_naive elems scalars =
      multi_scalar_mul_var_time elems scalars ∧
    multi_scalar_mul_var_time elems scalars =
      multi_scalar_mul_const_time_without_precomputation elems scalars := by
  rw [msm_naive_ok elems scalars h, msm_var_ok elems scalars h, msm_const_ok elems scalars h]
  exact ⟨rfl, rfl⟩

theorem multi_scalar_mul_strategies_agree_witness :
    ([(2 : ℤ), 3].length = [5, 7].length) ∧
    (multi_scalar_mul_const_time_naive [(2 : ℤ), 3] [5, 7] =
        multi_scalar_mul_var_time [(2 : ℤ), 3] [5, 7] ∧
      multi_scalar_mul_var_time [(2 : ℤ), 3] [5, 7] =
        multi_scalar_mul_const_time_without_precomputation [(2 : ℤ), 3] [5, 7]) :=
  ⟨rfl, multi_scalar_mul_strategies_agree [(2 : ℤ), 3] [5, 7] rfl⟩

/-- Claim C8: for input vectors of different lengths, each multi-scalar
multiplication strategy returns the size-mismatch error
(`ValueError::UnequalSizeVectors` carrying the two lengths, in the order each
strategy checks them) instead of a group element — the inputs are never
truncated or padded to make the lengths agree. -/
theorem multi_scalar_mul_size_mismatch {G : Type} [AddCommGroup G]
    (elems : List G) (scalars : List Nat) (h : elems.length ≠ scalars.length) :
    multi_scalar_mul_const_time_naive elems scalars =
      Except.error (ValueError.UnequalSizeVectors scalars.length elems.length) ∧
    multi_scalar_mul_var_time elems scalars =
      Except.error (ValueError.UnequalSizeVectors scalars.length elems.length) ∧
    multi_scalar_mul_const_time_without_precomputation elems scalars =
      Except.error (ValueError.UnequalSizeVectors elems.length scalars.length) := by
  refine ⟨?_, ?_, ?_⟩
  · unfold multi_scalar_mul_const_time_naive checkVectorSizeForEquality
    rw [if_neg (by omega)]
  · unfold multi_scalar_mul_var_time multi_scalar_mul_var_time_without_precomputation
      multi_scalar_mul_var_time_with_precomputation_done checkVectorSizeForEquality
    simp only [List.length_map]
    rw [if_neg (by omega)]
  · unfold multi_scalar_mul_const_time_without_precomputation
      multi_scalar_mul_const_time_with_precomputation_done checkVectorSizeForEquality
    simp only [List.length_map]
    rw [if_neg (by omega)]

theorem multi_scalar_mul_size_mismatch_witness :
    ([(2 : ℤ), 3, 4].length ≠ [5, 7].length) ∧
    (multi_scalar_mul_const_time_naive [(2 : ℤ), 3, 4] [5, 7] =
        Except.error (ValueError.UnequalSizeVectors 2 3) ∧
      multi_scalar_mul_var_time [(2 : ℤ), 3, 4] [5, 7] =
        Except.error (ValueError.UnequalSizeVectors 2 3) ∧
      multi_scalar_mul_const_time_without_precomputation [(2 : ℤ), 3, 4] [5, 7] =
        Except.error (ValueError.UnequalSizeVectors 3 2)) :=
  ⟨by decide, multi_scalar_mul_size_mismatch [(2 : ℤ), 3, 4] [5, 7] (by decide)⟩

/-- Claim C9: when both input vectors are empty, every multi-scalar
multiplication strategy succeeds and returns the identity element. -/
theorem multi_scalar_mul_empty_inputs {G : Type} [AddCommGroup G] :
    multi_scalar_mul_const_time_naive ([] : List G) [] = Except.ok 0 ∧
    multi_scalar_mul_var_time ([] : List G) [] = Except.ok 0 ∧
    multi_scalar_mul_const_time_without_precomputation ([] : List G) [] = Except.ok 0 :=
  ⟨rfl, rfl, rfl⟩

/-! ### Pairing pipeline theorems -/

theorem ate_pairing_id1 {G1 G2 F A : Type} (P : PairingPrims G1 G2 F A)
    (x1 : G1) (x2 : G2) (hx : P.isId1 x1 = true) : ate_pairing P x1 x2 = P.oneGT := by
  simp [ate_pairing, hx]

theorem ate_pairing_id2 {G1 G2 F A : Type} (P : PairingPrims G1 G2 F A)
    (x1 : G1) (x2 : G2) (hx : P.isId2 x2 = true) : ate_pairing P x1 x2 = P.oneGT := by
  simp [ate_pairing, hx]

/-- Claim C6: identity absorption in pairings.  With `e1`/`e2` identity
elements of G1/G2 (and given the external-field fact that `GT::one()`
satisfies `isunity`): `ate_pairing(e1, Q).is_one()` and
`ate_pairing(P, e2).is_one()` hold for all `Q`, `P`; a second pair containing
an identity makes `ate_2_pairing` degrade to the first pairing alone
(`ate_2_pairing(P,Q,e1,H) = ate_pairing(P,Q)` and symmetrically in the fourth
argument); a first pair containing an identity makes it degrade to the second
pairing alone. -/
theorem pairing_identity_absorption {G1 G2 F A : Type} (P : PairingPrims G1 G2 F A)
    (e1 : G1) (e2 : G2) (g1 h1 : G1) (g2 h2 : G2)
    (hone : P.isunity P.oneGT = true)
    (he1 : P.isId1 e1 = true) (he2 : P.isId2 e2 = true) :
    P.isunity (ate_pairing P e1 g2) = true ∧
    P.isunity (ate_pairing P g1 e2) = true ∧
    ate_2_pairing P g1 g2 e1 h2 = ate_pairing P g1 g2 ∧
    ate_2_pairing P g1 g2 h1 e2 = ate_pairing P g1 g2 ∧
    ate_2_pairing P e1 g2 h1 h2 = ate_pairing P h1 h2 ∧
    ate_2_pairing P g1 e2 h1 h2 = ate_pairing P h1 h2 := by
  refine ⟨?_, ?_, ?_, ?_, ?_, ?_⟩
  · rw [ate_pairing_id1 P e1 g2 he1]; exact hone
  · rw [ate_pairing_id2 P g1 e2 he2]; exact hone
  · by_cases hg : (P.isId1 g1 || P.isId2 g2) = true
    · rw [show ate_2_pairing P g1 g2 e1 h2 = ate_pairing P e1 h2 by
        simp [ate_2_pairing, hg]]
      rw [ate_pairing_id1 P e1 h2 he1]
      rcases Bool.or_eq_true_iff.mp hg with h | h
      · rw [ate_pairing_id1 P g1 g2 h]
      · rw [ate_pairing_id2 P g1 g2 h]
    · unfold ate_2_pairing
      rw [if_neg hg, if_pos (by rw [he1, Bool.true_or])]
  · by_cases hg : (P.isId1 g1 || P.isId2 g2) = true
    · rw [show ate_2_pairing P g1 g2 h1 e2 = ate_pairing P h1 e2 by
        simp [ate_2_pairing, hg]]
      rw [ate_pairing_id2 P h1 e2 he2]
      rcases Bool.or_eq_true_iff.mp hg with h | h
      · rw [ate_pairing_id1 P g1 g2 h]
      · rw [ate_pairing_id2 P g1 g2 h]
    · unfold ate_2_pairing
      rw [if_neg hg, if_pos (by rw [he2, Bool.or_true])]
  · unfold ate_2_pairing
    rw [if_pos (by rw [he1, Bool.true_or])]
  · unfold ate_2_pairing
    rw [if_pos (by rw [he2, Bool.or_true])]

theorem pairing_identity_absorption_witness :
    (testPrims.isunity testPrims.oneGT = true ∧
      testPrims.isId1 true = true ∧ testPrims.isId2 true = true) ∧
    (testPrims.isunity (ate_pairing testPrims true false) = true ∧
      testPrims.isunity (ate_pairing testPrims false true) = true ∧
      ate_2_pairing testPrims false false true false = ate_pairing testPrims false false ∧
      ate_2_pairing testPrims false false false true = ate_pairing testPrims false false ∧
      ate_2_pairing testPrims true false false false = ate_pairing testPrims false false ∧
      ate_2_pairing testPrims false true false false = ate_pairing testPrims false false) :=
  ⟨by decide,
   pairing_identity_absorption testPrims true true false false false false
     (by decide) (by decide) (by decide)⟩

/-- Claim C7: `ate_multi_pairing` skips every pair in which either component
is the group identity, so the result on a batch containing such a pair equals
the result on the same batch with that pair removed. -/
theorem ate_multi_pairing_skips_identity {G1 G2 F A : Type} (P : PairingPrims G1 G2 F A)
    (l1 l2 : List (G1 × G2)) (p : G1 × G2)
    (hp : (P.isId1 p.1 || P.isId2 p.2) = true) :
    ate_multi_pairing P (l1 ++ p :: l2) = ate_multi_pairing P (l1 ++ l2) := by
  unfold ate_multi_pairing
  congr 2
  rw [List.foldl_append, List.foldl_append, List.foldl_cons]
  congr 1
  simp [hp]

theorem ate_multi_pairing_skips_identity_witness :
    ((testPrims.isId1 true || testPrims.isId2 false) = true) ∧
    ate_multi_pairing testPrims [(false, false), (true, false)] =
      ate_multi_pairing testPrims [(false, false)] :=
  ⟨by decide,
   ate_multi_pairing_skips_identity testPrims [(false, false)] [] (true, false) (by decide)⟩
